import Mathlib

/-!
Verification of the hq-go-url domain/URL parsing and extraction code.

Go strings are modelled as `List Char`.  Go standard-library helpers used by
the code (`strings.Split`, `strings.Join`, `strings.HasPrefix`,
`strings.Contains`, `index/suffixarray.Index.Lookup`, `net.ParseIP`,
`regexp` leftmost-longest matching) are modelled from their documented
semantics; the repository's own functions (`DomainParser.Parse`,
`DomainParser.findTLDOffset`, `Domain.String`, `addScheme`,
`Extractor.CompileRegex`, `URLParser.Parse`, the port pattern) are translated
from the source.
-/

namespace HqURL

/-- Go `strings.Split(s, ".")`, accumulator form: splits on `'.'`.
`splitDotAux s acc` prepends the reversed accumulator to the first label. -/
def splitDotAux : List Char → List Char → List (List Char)
  | [], acc => [acc.reverse]
  | c :: cs, acc =>
      if c = '.' then acc.reverse :: splitDotAux cs [] else splitDotAux cs (c :: acc)

/-- Go `strings.Split(s, ".")`: `splitDot [] = [[]]`, exactly as Go returns
`[""]` for the empty string. -/
def splitDot (s : List Char) : List (List Char) :=
  splitDotAux s []

/-- Go `strings.Join(parts, string(sep))` for a one-character separator. -/
def joinSep (sep : Char) : List (List Char) → List Char
  | [] => []
  | [x] => x
  | x :: y :: t => x ++ sep :: joinSep sep (y :: t)

/-- Go `strings.Join(parts, ".")`. -/
def joinDot : List (List Char) → List Char :=
  joinSep '.'

/-- The NUL byte used by `NewDomainParser` to separate suffix-list entries. -/
def nulChar : Char := Char.ofNat 0

/-- The byte string indexed by the suffix array in `NewDomainParser` /
`DomainParserWithTLDs`: `"\x00" + strings.Join(TLDs, "\x00") + "\x00"`. -/
def saText (tlds : List (List Char)) : List Char :=
  nulChar :: (joinSep nulChar tlds ++ [nulChar])

/-- Result of `sa.Lookup([]byte(q), -1)` being non-empty.  Per the
`index/suffixarray` documentation, `Lookup` returns the indices at which `q`
occurs as a substring of the indexed data, and returns no indices when `q` is
empty.  So the lookup finds something iff `q` is non-empty and occurs as a
contiguous substring of `saText tlds`. -/
def saLookupFound (tlds : List (List Char)) (q : List Char) : Bool :=
  decide (q ≠ [] ∧ q <:+: saText tlds)

/-- The `Domain` record (src/domain.go).  Field names follow src/domain.go
(`Sub`, `Root`, `TopLevel`); the variant of src/domain_parser.go calls the
same three fields `Subdomain`, `SLD` and `TLD`. -/
structure Domain where
  Sub : List Char
  Root : List Char
  TopLevel : List Char
deriving DecidableEq, Repr

/-- `Domain.String` (src/domain.go): join the non-empty components with
`"."`, omitting empty ones. -/
def Domain.string (d : Domain) : List Char :=
  joinDot ((if d.Sub = [] then [] else [d.Sub]) ++
           (if d.Root = [] then [] else [d.Root]) ++
           (if d.TopLevel = [] then [] else [d.TopLevel]))

/-- A `DomainParser` holds the suffix-array index; we keep the list of suffix
strings the index was built from (`NewDomainParser` /
`DomainParserWithTLDs`). -/
structure DomainParser where
  tlds : List (List Char)

/-- The loop body of `DomainParser.findTLDOffset` (src/domain_parser.go).
`i` is the current loop index (running from `len(parts)-1` down to `0`) and
`acc` the current value of `offset`.  On a successful lookup the code sets
`offset = i - 1` and continues with `i - 1`; on a failed lookup it breaks,
keeping the previous `offset`. -/
def findTLDOffsetAux (look : List Char → Bool) (parts : List (List Char)) :
    Nat → Int → Int
  | 0, acc => if look (joinDot parts) then -1 else acc
  | i + 1, acc =>
      if look (joinDot (parts.drop (i + 1))) then
        findTLDOffsetAux look parts i (i : Int)
      else acc

/-- `DomainParser.findTLDOffset` (src/domain_parser.go lines 81-100):
walk right-to-left, joining `parts[i:]` and querying the suffix array;
`offset` starts at `-1`. -/
def DomainParser.findTLDOffset (p : DomainParser) (parts : List (List Char)) : Int :=
  match parts.length with
  | 0 => -1
  | n + 1 => findTLDOffsetAux (saLookupFound p.tlds) parts n (-1)

/-- `DomainParser.Parse` (src/domain_parser.go lines 44-68). -/
def DomainParser.Parse (p : DomainParser) (domain : List Char) : Domain :=
  let parts := splitDot domain
  if parts.length ≤ 1 then { Sub := [], Root := domain, TopLevel := [] }
  else
    let o := p.findTLDOffset parts
    if o < 0 then { Sub := [], Root := domain, TopLevel := [] }
    else
      { Sub := joinDot (parts.take o.toNat)
        Root := parts.getD o.toNat []
        TopLevel := joinDot (parts.drop (o.toNat + 1)) }

/-- Go `strings.HasPrefix(s, pre)`: `s` starts with `pre`. -/
def goStartsWith (s pre : List Char) : Bool :=
  decide (pre <+: s)

/-- Go `strings.Contains(s, sub)`: `sub` occurs as a contiguous substring. -/
def goContains (s sub : List Char) : Bool :=
  decide (sub <:+: s)

/-- The helper `addScheme` (src/url_parser.go lines 145-158): prepend the
default scheme when the URL does not already look absolute.  The three
guards are checked in source order. -/
def addScheme (inURL scheme : List Char) : List Char :=
  if goStartsWith inURL ('/' :: '/' :: []) then scheme ++ ':' :: inURL
  else if goStartsWith inURL (':' :: '/' :: '/' :: []) then scheme ++ inURL
  else if !goContains inURL ('/' :: '/' :: []) then
    scheme ++ ':' :: '/' :: '/' :: inURL
  else inURL

/-- Decimal digit test, `[0-9]`. -/
def isDigitCh (c : Char) : Bool :=
  decide ('0' ≤ c ∧ c ≤ '9')

/-- Numeric value of a decimal digit string. -/
def decValue (s : List Char) : Nat :=
  s.foldl (fun acc c => 10 * acc + (c.toNat - '0'.toNat)) 0

/-- First alternative of `ExtractorPortPattern`, `:[0-9]{1,4}`:
a colon followed by one to four digits. -/
def portAltColon (s : List Char) : Bool :=
  match s with
  | ':' :: ds => decide (1 ≤ ds.length) && decide (ds.length ≤ 4) && ds.all isDigitCh
  | _ => false

/-- Second alternative of `ExtractorPortPattern`, `[1-5][0-9]{4}`:
five digits, the first between '1' and '5' — note: no colon. -/
def portAltMid (s : List Char) : Bool :=
  match s with
  | d0 :: ds =>
      decide ('1' ≤ d0 ∧ d0 ≤ '5') && decide (ds.length = 4) && ds.all isDigitCh
  | _ => false

/-- Third alternative of `ExtractorPortPattern`, `6[0-5][0-9]{3}\b`:
"6", a digit between '0' and '5', then three digits — again no colon; the
trailing word boundary always holds at end of input after a digit. -/
def portAltHigh (s : List Char) : Bool :=
  match s with
  | '6' :: d1 :: ds =>
      decide ('0' ≤ d1 ∧ d1 ≤ '5') && decide (ds.length = 3) && ds.all isDigitCh
  | _ => false

/-- Whole-string match of `ExtractorPortPattern =
`(?::[0-9]{1,4}|[1-5][0-9]{4}|6[0-5][0-9]{3}\b)`` (src/extractor.go line
140): the alternation of the three branches above. -/
def portPatternMatch (s : List Char) : Bool :=
  portAltColon s || portAltMid s || portAltHigh s

/-- The two configuration flags that drive the final `switch` in
`Extractor.CompileRegex` (src/extractor.go lines 76-83).  The custom scheme
and host override patterns only change the sub-patterns, which are kept
abstract below. -/
structure ExtractorConfig where
  withScheme : Bool
  withHost : Bool

/-- A sub-pattern of the compiled regular expression, modelled extensionally:
given the suffix of the text starting at the current offset, it yields the
lengths of the prefixes it can match there. -/
def Pat : Type := List Char → List Nat

/-- A compiled matcher: the top-level alternation plus the flag set by
`regex.Longest()`. -/
structure CompiledRegex where
  alts : List Pat
  longest : Bool

/-- `Extractor.CompileRegex` (src/extractor.go lines 74-90): the final
pattern is `URLsWithSchemePattern` alone when a scheme is required,
`URLsWithSchemePattern|URLsWithHostPattern` when only a host is required,
and all three top-level forms otherwise; `regex.Longest()` is called in
every case. -/
def Extractor.CompileRegex (cfg : ExtractorConfig)
    (urlsWithScheme urlsWithHost relativeURLs : Pat) : CompiledRegex :=
  { alts :=
      if cfg.withScheme then [urlsWithScheme]
      else if cfg.withHost then [urlsWithScheme, urlsWithHost]
      else [urlsWithScheme, urlsWithHost, relativeURLs]
    longest := true }

/-- Maximum of a list of naturals (0 when empty). -/
def maxLen : List Nat → Nat
  | [] => 0
  | x :: xs => max x (maxLen xs)

/-- Match attempt at one offset, modelling Go `regexp` semantics: with
`Longest()` set the engine returns the longest match over all alternatives
(leftmost-longest); without it the first (preferred) alternative's match is
taken. -/
def matchLenAt (r : CompiledRegex) (suffix : List Char) : Option Nat :=
  match (r.alts.map fun p => p suffix).flatten with
  | [] => none
  | l :: rest => some (if r.longest then maxLen (l :: rest) else l)

/-- One scan of `FindAll`-style matching: try each offset left to right,
emit `(offset, length)` for each match and resume after it (advancing at
least one position on an empty match), with fuel for termination. -/
def findAllAux (r : CompiledRegex) (s : List Char) : Nat → Nat → List (Nat × Nat)
  | _, 0 => []
  | pos, fuel + 1 =>
      match matchLenAt r (s.drop pos) with
      | some l => (pos, l) :: findAllAux r s (pos + max l 1) fuel
      | none => if pos < s.length then findAllAux r s (pos + 1) fuel else []

/-- `findAll`: all matches of the compiled matcher over the text, as
`(offset, length)` pairs. -/
def findAll (r : CompiledRegex) (s : List Char) : List (Nat × Nat) :=
  findAllAux r s 0 (s.length + 1)

/-- Go `net.ParseIP`'s IPv4 path (fields separated by '.', each a non-empty
all-digit run with value at most 255 and no leading zero, exactly four
fields consuming the whole string). -/
def goParseIPv4Valid (s : List Char) : Bool :=
  let fields := splitDot s
  decide (fields.length = 4) &&
    fields.all fun f =>
      decide (f ≠ []) && f.all isDigitCh && decide (decValue f ≤ 255) &&
        (decide (f.length ≤ 1) || decide (f.headD '0' ≠ '0'))

/-- Scan of Go `net.ParseIP`: the first '.' or ':' decides between the IPv4
and IPv6 parser; no such byte means not an IP.  The IPv6 parser is kept
abstract as `v6`. -/
def goParseIPFoundAux (v6 : List Char → Bool) (full : List Char) :
    List Char → Bool
  | [] => false
  | c :: cs =>
      if c = '.' then goParseIPv4Valid full
      else if c = ':' then v6 full
      else goParseIPFoundAux v6 full cs

/-- Whether Go `net.ParseIP(s)` returns a non-nil IP. -/
def goParseIPFound (v6 : List Char → Bool) (s : List Char) : Bool :=
  goParseIPFoundAux v6 s s

/-- The result of `net/url.Parse`, abstracted to the only component the
repository's code reads afterwards: `Hostname()`. -/
structure GoURL where
  hostname : List Char

/-- The repository's `URL` record: the embedded `net/url` result plus the
optional `Domain` decomposition (nil ↦ `none`). -/
structure ParsedURL where
  base : GoURL
  domain : Option Domain

/-- The `URLParser` state (src/parser/url_parser.go): a domain parser and
the default scheme (empty = unset). -/
structure URLParser where
  dp : DomainParser
  scheme : List Char

/-- `URLParser.Parse` (src/parser/url_parser.go lines 44-63): add the
default scheme when configured, run `net/url.Parse` (abstracted as
`urlParse`, `none` modelling the error return), and attach the `Domain`
decomposition exactly when `net.ParseIP(hostname)` is nil. -/
def URLParser.Parse (p : URLParser) (v6 : List Char → Bool)
    (urlParse : List Char → Option GoURL) (unparsed : List Char) :
    Option ParsedURL :=
  let u := if p.scheme = [] then unparsed else addScheme unparsed p.scheme
  match urlParse u with
  | none => none
  | some base =>
      some { base := base
             domain :=
               if goParseIPFound v6 base.hostname then none
               else some (p.dp.Parse base.hostname) }

/-! Helper lemmas about the string model. -/

theorem splitDotAux_ne_nil : ∀ (s acc : List Char), splitDotAux s acc ≠ []
  | [], _ => by simp [splitDotAux]
  | c :: cs, acc => by
      unfold splitDotAux
      by_cases h : c = '.' <;> simp [h, splitDotAux_ne_nil cs]

theorem splitDot_ne_nil (s : List Char) : splitDot s ≠ [] :=
  splitDotAux_ne_nil s []

theorem joinSep_cons_ne_nil (sep : Char) (a : List Char) {l : List (List Char)}
    (h : l ≠ []) : joinSep sep (a :: l) = a ++ sep :: joinSep sep l := by
  cases l with
  | nil => exact absurd rfl h
  | cons b t => rfl

theorem joinDot_splitDotAux : ∀ (s acc : List Char),
    joinDot (splitDotAux s acc) = acc.reverse ++ s
  | [], acc => by simp [splitDotAux, joinDot, joinSep]
  | c :: cs, acc => by
      unfold splitDotAux
      by_cases h : c = '.'
      · rw [if_pos h, joinDot, joinSep_cons_ne_nil '.' _ (splitDotAux_ne_nil cs [])]
        have := joinDot_splitDotAux cs []
        rw [joinDot] at this
        rw [this]
        simp [h]
      · rw [if_neg h]
        have := joinDot_splitDotAux cs (c :: acc)
        rw [joinDot] at this ⊢
        rw [this]
        simp

theorem joinDot_splitDot (s : List Char) : joinDot (splitDot s) = s := by
  have := joinDot_splitDotAux s []
  simpa [splitDot] using this

theorem joinSep_append (sep : Char) :
    ∀ {l₁ l₂ : List (List Char)}, l₁ ≠ [] → l₂ ≠ [] →
      joinSep sep (l₁ ++ l₂) = joinSep sep l₁ ++ sep :: joinSep sep l₂ := by
  intro l₁
  induction l₁ with
  | nil => intro _ h _; exact absurd rfl h
  | cons a t ih =>
    intro l₂ _ h₂
    cases t with
    | nil =>
      cases l₂ with
      | nil => exact absurd rfl h₂
      | cons b t₂ => simp [joinSep]
    | cons b t' =>
      have : (a :: b :: t') ++ l₂ = a :: ((b :: t') ++ l₂) := rfl
      rw [this, joinSep_cons_ne_nil sep a (by simp),
        ih (by simp) h₂, joinSep_cons_ne_nil sep a (by simp)]
      simp

theorem splitDotAux_no_dot : ∀ (s acc : List Char), (∀ c ∈ s, c ≠ '.') →
    splitDotAux s acc = [acc.reverse ++ s]
  | [], acc, _ => by simp [splitDotAux]
  | c :: cs, acc, h => by
      have hc : c ≠ '.' := h c (by simp)
      unfold splitDotAux
      rw [if_neg hc, splitDotAux_no_dot cs (c :: acc) (fun d hd => h d (by simp [hd]))]
      simp

theorem joinDot_drop_length_pred : ∀ l : List (List Char),
    joinDot (l.drop (l.length - 1)) = l.getLastD []
  | [] => rfl
  | [a] => rfl
  | a :: b :: t => by
      have h1 : (a :: b :: t).drop ((a :: b :: t).length - 1) =
          (b :: t).drop ((b :: t).length - 1) := by
        simp [List.length_cons]
      rw [h1, joinDot_drop_length_pred (b :: t)]
      simp [List.getLastD]

theorem mem_infix_joinSep (sep : Char) :
    ∀ {q : List Char} {L : List (List Char)}, q ∈ L → q <:+: joinSep sep L := by
  intro q L
  induction L with
  | nil => intro h; cases h
  | cons a t ih =>
    intro h
    cases t with
    | nil =>
      have : q = a := by simpa using h
      exact this ▸ ⟨[], [], by simp [joinSep]⟩
    | cons b t' =>
      rcases List.mem_cons.mp h with h | h
      · exact ⟨[], sep :: joinSep sep (b :: t'), by simp [joinSep, h]⟩
      · obtain ⟨u, v, huv⟩ := ih h
        exact ⟨a ++ sep :: u, v, by
          rw [joinSep_cons_ne_nil sep a (by simp), ← huv]; simp⟩

theorem saLookupFound_of_mem {q : List Char} {L : List (List Char)}
    (hm : q ∈ L) (hq : q ≠ []) : saLookupFound L q = true := by
  obtain ⟨u, v, huv⟩ := mem_infix_joinSep nulChar hm
  refine decide_eq_true ⟨hq, ⟨nulChar :: u, v ++ [nulChar], ?_⟩⟩
  simp [saText, ← huv]

theorem ne_nil_of_saLookupFound {L : List (List Char)} {q : List Char}
    (h : saLookupFound L q = true) : q ≠ [] :=
  (of_decide_eq_true h).1

/-! Helper lemmas about the `findTLDOffset` loop. -/

theorem findTLDOffsetAux_spec (look : List Char → Bool) (parts : List (List Char)) :
    ∀ (i : Nat) (acc : Int),
      findTLDOffsetAux look parts i acc = acc ∨
      findTLDOffsetAux look parts i acc = -1 ∨
      ∃ j : Nat, 1 ≤ j ∧ j ≤ i ∧
        findTLDOffsetAux look parts i acc = (j : Int) - 1 ∧
        look (joinDot (parts.drop j)) = true := by
  intro i
  induction i with
  | zero =>
    intro acc
    cases h : look (joinDot parts) with
    | false => left; simp [findTLDOffsetAux, h]
    | true => right; left; simp [findTLDOffsetAux, h]
  | succ i ih =>
    intro acc
    cases h : look (joinDot (parts.drop (i + 1))) with
    | false => left; simp [findTLDOffsetAux, h]
    | true =>
      have hstep : findTLDOffsetAux look parts (i + 1) acc =
          findTLDOffsetAux look parts i (i : Int) := by
        simp [findTLDOffsetAux, h]
      rcases ih (i : Int) with h1 | h1 | ⟨j, hj1, hj2, hj3, hj4⟩
      · right; right
        refine ⟨i + 1, by omega, le_refl _, ?_, h⟩
        rw [hstep, h1]
        omega
      · right; left
        rw [hstep, h1]
      · right; right
        exact ⟨j, hj1, by omega, by rw [hstep, hj3], hj4⟩

theorem findTLDOffsetAux_eq_neg_one (look : List Char → Bool)
    (parts : List (List Char)) :
    ∀ (i : Nat) (acc : Int),
      (∀ j, j ≤ i → look (joinDot (parts.drop j)) = true) →
      findTLDOffsetAux look parts i acc = -1 := by
  intro i
  induction i with
  | zero =>
    intro acc h
    have h0 := h 0 (le_refl _)
    rw [List.drop_zero] at h0
    simp [findTLDOffsetAux, h0]
  | succ i ih =>
    intro acc h
    have hs := h (i + 1) (le_refl _)
    simp only [findTLDOffsetAux, hs, if_true]
    exact ih _ (fun j hj => h j (by omega))

theorem findTLDOffset_eq_aux (p : DomainParser) (parts : List (List Char))
    (n : Nat) (h : parts.length = n + 1) :
    p.findTLDOffset parts = findTLDOffsetAux (saLookupFound p.tlds) parts n (-1) := by
  unfold DomainParser.findTLDOffset
  rw [h]

/-- The two possible outcomes of `DomainParser.Parse`: either the
registrable-domain-only record, or a split at a boundary `j` that was
confirmed by the suffix-array query. -/
theorem Parse_cases (p : DomainParser) (domain : List Char) :
    p.Parse domain = { Sub := [], Root := domain, TopLevel := [] } ∨
    ∃ j n, (splitDot domain).length = n + 2 ∧ 1 ≤ j ∧ j ≤ n + 1 ∧
      saLookupFound p.tlds (joinDot ((splitDot domain).drop j)) = true ∧
      p.Parse domain =
        { Sub := joinDot ((splitDot domain).take (j - 1))
          Root := (splitDot domain).getD (j - 1) []
          TopLevel := joinDot ((splitDot domain).drop j) } := by
  by_cases hlen : (splitDot domain).length ≤ 1
  · left; simp [DomainParser.Parse, hlen]
  · obtain ⟨n, hn⟩ : ∃ n, (splitDot domain).length = n + 2 := ⟨(splitDot domain).length - 2, by omega⟩
    have hoff := findTLDOffset_eq_aux p (splitDot domain) (n + 1) (by omega)
    rcases findTLDOffsetAux_spec (saLookupFound p.tlds) (splitDot domain) (n + 1) (-1) with
      h1 | h1 | ⟨j, hj1, hj2, hj3, hj4⟩
    · left
      have ho : p.findTLDOffset (splitDot domain) = -1 := hoff.trans h1
      simp [DomainParser.Parse, hlen, ho]
    · left
      have ho : p.findTLDOffset (splitDot domain) = -1 := hoff.trans h1
      simp [DomainParser.Parse, hlen, ho]
    · right
      refine ⟨j, n, hn, hj1, hj2, hj4, ?_⟩
      have ho : p.findTLDOffset (splitDot domain) = (j : Int) - 1 := hoff.trans hj3
      have hnonneg : ¬ p.findTLDOffset (splitDot domain) < 0 := by
        rw [ho]; omega
      have htn : (p.findTLDOffset (splitDot domain)).toNat = j - 1 := by
        rw [ho]; omega
      have hsub : j - 1 + 1 = j := by omega
      simp [DomainParser.Parse, hlen, hnonneg, htn, hsub]

theorem drop_eq_getD_cons : ∀ (l : List (List Char)) (k : Nat), k < l.length →
    l.drop k = l.getD k [] :: l.drop (k + 1)
  | [], k, h => by simp at h
  | a :: t, 0, _ => rfl
  | a :: t, k + 1, h => by
      have ht : k < t.length := by simpa using h
      simpa [List.getD] using drop_eq_getD_cons t k ht

theorem joinDot_cons_ne_nil {a : List Char} (l : List (List Char)) (ha : a ≠ []) :
    joinDot (a :: l) ≠ [] := by
  cases l with
  | nil => simpa [joinDot, joinSep] using ha
  | cons b t => simp [joinDot, joinSep]

theorem getD_mem {l : List (List Char)} {k : Nat} (h : k < l.length) :
    l.getD k [] ∈ l := by
  have := drop_eq_getD_cons l k h
  have hmem : l.getD k [] ∈ l.drop k := by
    rw [this]; exact List.mem_cons_self _ _
  exact List.drop_subset k l hmem

theorem maxLen_ge : ∀ {x : Nat} {l : List Nat}, x ∈ l → x ≤ maxLen l := by
  intro x l
  induction l with
  | nil => intro h; cases h
  | cons a t ih =>
    intro h
    rcases List.mem_cons.mp h with h | h
    · subst h; exact le_max_left _ _
    · exact le_trans (ih h) (le_max_right _ _)

theorem findAllAux_sound (r : CompiledRegex) (s : List Char) :
    ∀ (fuel pos i l : Nat), (i, l) ∈ findAllAux r s pos fuel →
      matchLenAt r (s.drop i) = some l := by
  intro fuel
  induction fuel with
  | zero => intro pos i l h; simp [findAllAux] at h
  | succ fuel ih =>
    intro pos i l h
    unfold findAllAux at h
    cases hm : matchLenAt r (s.drop pos) with
    | some m =>
      rw [hm] at h
      rcases List.mem_cons.mp h with h | h
      · rw [Prod.mk.injEq] at h
        obtain ⟨h1, h2⟩ := h
        subst h1; subst h2
        exact hm
      · exact ih _ _ _ h
    | none =>
      rw [hm] at h
      by_cases hp : pos < s.length
      · rw [if_pos hp] at h
        exact ih _ _ _ h
      · rw [if_neg hp] at h
        cases h

theorem findTLDOffsetAux_succ_true {look : List Char → Bool}
    {parts : List (List Char)} {i : Nat} {acc : Int}
    (h : look (joinDot (parts.drop (i + 1))) = true) :
    findTLDOffsetAux look parts (i + 1) acc = findTLDOffsetAux look parts i (i : Int) := by
  simp [findTLDOffsetAux, h]

theorem findTLDOffsetAux_succ_false {look : List Char → Bool}
    {parts : List (List Char)} {i : Nat} {acc : Int}
    (h : look (joinDot (parts.drop (i + 1))) = false) :
    findTLDOffsetAux look parts (i + 1) acc = acc := by
  simp [findTLDOffsetAux, h]

/-! Claim theorems. -/

/-- C1: the claim states that the suffix-index query succeeds only on exact
membership in the suffix list.  The code instead performs a substring search:
with suffix list `["com"]` the query for `"o"` succeeds (it occurs inside
`"com"`), although `"o"` is not an element of the list, and consequently
`Parse "example.o"` reports the unknown suffix `"o"`.  This contradicts the
exact-membership behaviour the spec describes and the code documents. -/
theorem c1_lookup_is_substring_not_exact :
    saLookupFound [("com").toList] (("o").toList) = true ∧
    ("o").toList ∉ [("com").toList] ∧
    DomainParser.Parse ⟨[("com").toList]⟩ (("example.o").toList) =
      { Sub := [], Root := ("example").toList, TopLevel := ("o").toList } := by
  decide

/-- C2 (amended): for inputs all of whose dot-separated labels are non-empty,
the parsed record is in exactly one of the two states: (i) suffix recognized
(`TopLevel` and `Root` non-empty), or (ii) no suffix (`Root` is the whole
input, `Sub` and `TopLevel` empty); and every input without a dot is in
state (ii).  The original unrestricted claim fails on inputs with empty
labels such as `".com"`. -/
theorem c2_state_invariant (p : DomainParser) (domain : List Char) :
    ((∀ part ∈ splitDot domain, part ≠ []) →
      ((((p.Parse domain).TopLevel ≠ [] ∧ (p.Parse domain).Root ≠ []) ∧
          ¬ ((p.Parse domain).Root = domain ∧ (p.Parse domain).Sub = [] ∧
              (p.Parse domain).TopLevel = [])) ∨
       (((p.Parse domain).Root = domain ∧ (p.Parse domain).Sub = [] ∧
              (p.Parse domain).TopLevel = []) ∧
          ¬ ((p.Parse domain).TopLevel ≠ [] ∧ (p.Parse domain).Root ≠ [])))) ∧
    ((∀ c ∈ domain, c ≠ '.') →
      p.Parse domain = { Sub := [], Root := domain, TopLevel := [] }) := by
  constructor
  · intro hlab
    rcases Parse_cases p domain with h | ⟨j, n, hn, hj1, hj2, hlook, h⟩
    · right
      refine ⟨by rw [h]; exact ⟨rfl, rfl, rfl⟩, ?_⟩
      rintro ⟨hTL, -⟩
      exact hTL (by rw [h])
    · left
      have hj1lt : j - 1 < (splitDot domain).length := by omega
      have hTL : (p.Parse domain).TopLevel ≠ [] := by
        rw [h]
        exact ne_nil_of_saLookupFound hlook
      have hRoot : (p.Parse domain).Root ≠ [] := by
        rw [h]
        exact hlab _ (getD_mem hj1lt)
      refine ⟨⟨hTL, hRoot⟩, ?_⟩
      rintro ⟨-, -, hTL2⟩
      exact hTL hTL2
  · intro hnd
    have hsplit : splitDot domain = [domain] := by
      have := splitDotAux_no_dot domain [] hnd
      simpa [splitDot] using this
    simp [DomainParser.Parse, hsplit]

/-- Witness for C2 at concrete inputs: `"www.example.com"` with list
`["com"]` is in state (i), and the dot-free input `"localhost"` is in
state (ii). -/
theorem c2_state_invariant_witness :
    ((((DomainParser.Parse ⟨[("com").toList]⟩ (("www.example.com").toList)).TopLevel ≠ [] ∧
        (DomainParser.Parse ⟨[("com").toList]⟩ (("www.example.com").toList)).Root ≠ []) ∧
        ¬ ((DomainParser.Parse ⟨[("com").toList]⟩ (("www.example.com").toList)).Root =
              ("www.example.com").toList ∧
            (DomainParser.Parse ⟨[("com").toList]⟩ (("www.example.com").toList)).Sub = [] ∧
            (DomainParser.Parse ⟨[("com").toList]⟩ (("www.example.com").toList)).TopLevel = [])) ∨
     (((DomainParser.Parse ⟨[("com").toList]⟩ (("www.example.com").toList)).Root =
              ("www.example.com").toList ∧
            (DomainParser.Parse ⟨[("com").toList]⟩ (("www.example.com").toList)).Sub = [] ∧
            (DomainParser.Parse ⟨[("com").toList]⟩ (("www.example.com").toList)).TopLevel = []) ∧
        ¬ ((DomainParser.Parse ⟨[("com").toList]⟩ (("www.example.com").toList)).TopLevel ≠ [] ∧
            (DomainParser.Parse ⟨[("com").toList]⟩ (("www.example.com").toList)).Root ≠ []))) ∧
    DomainParser.Parse ⟨[("com").toList]⟩ (("localhost").toList) =
      { Sub := [], Root := ("localhost").toList, TopLevel := [] } :=
  ⟨(c2_state_invariant ⟨[("com").toList]⟩ (("www.example.com").toList)).1 (by decide),
   (c2_state_invariant ⟨[("com").toList]⟩ (("localhost").toList)).2 (by decide)⟩

/-- Counterexample for C2 as stated: on input `".com"` with suffix list
`["com"]` the parser returns `Sub = ""`, `Root = ""`, `TopLevel = "com"`,
which is in neither of the two states (the suffix is non-empty but the
registrable domain is empty, and `Root` is not the whole input either). -/
theorem c2_state_invariant_cex :
    ¬ (((DomainParser.Parse ⟨[("com").toList]⟩ ((".com").toList)).TopLevel ≠ [] ∧
        (DomainParser.Parse ⟨[("com").toList]⟩ ((".com").toList)).Root ≠ []) ∨
       ((DomainParser.Parse ⟨[("com").toList]⟩ ((".com").toList)).Root = (".com").toList ∧
        (DomainParser.Parse ⟨[("com").toList]⟩ ((".com").toList)).Sub = [] ∧
        (DomainParser.Parse ⟨[("com").toList]⟩ ((".com").toList)).TopLevel = [])) := by
  decide

/-- C5: `Parse` is total (it is a Lean function into `Domain`), the empty
string yields the record with all three fields empty, and whenever the
suffix-array query for the rightmost label fails the whole input becomes the
registrable domain with empty subdomain and suffix. -/
theorem c5_no_match_total (p : DomainParser) :
    p.Parse [] = { Sub := [], Root := [], TopLevel := [] } ∧
    ∀ domain : List Char,
      saLookupFound p.tlds ((splitDot domain).getLastD []) = false →
      p.Parse domain = { Sub := [], Root := domain, TopLevel := [] } := by
  constructor
  · rfl
  · intro domain hlast
    by_cases hlen : (splitDot domain).length ≤ 1
    · simp [DomainParser.Parse, hlen]
    · obtain ⟨n, hn⟩ : ∃ n, (splitDot domain).length = n + 2 :=
        ⟨(splitDot domain).length - 2, by omega⟩
      have hoff := findTLDOffset_eq_aux p (splitDot domain) (n + 1) (by omega)
      have hdrop : joinDot ((splitDot domain).drop (n + 1)) =
          (splitDot domain).getLastD [] := by
        have h := joinDot_drop_length_pred (splitDot domain)
        rw [hn] at h
        exact h
      have haux : findTLDOffsetAux (saLookupFound p.tlds) (splitDot domain)
          (n + 1) (-1) = -1 :=
        findTLDOffsetAux_succ_false (by rw [hdrop]; exact hlast)
      have ho : p.findTLDOffset (splitDot domain) = -1 := hoff.trans haux
      simp [DomainParser.Parse, hlen, ho]

/-- Witness for C5: concrete no-match input `"example.xyz"` against the
suffix list `["com"]`. -/
theorem c5_no_match_total_witness :
    DomainParser.Parse ⟨[("com").toList]⟩ [] =
      { Sub := [], Root := [], TopLevel := [] } ∧
    DomainParser.Parse ⟨[("com").toList]⟩ (("example.xyz").toList) =
      { Sub := [], Root := ("example.xyz").toList, TopLevel := [] } :=
  ⟨(c5_no_match_total ⟨[("com").toList]⟩).1,
   (c5_no_match_total ⟨[("com").toList]⟩).2 (("example.xyz").toList) (by decide)⟩

/-- C9: when every right-anchored candidate, including the join of all the
labels, is found by the suffix-array query, `findTLDOffset` returns `-1` and
`Parse` falls back to the registrable-domain-only record. -/
theorem c9_whole_input_suffix (p : DomainParser) (domain : List Char)
    (h2 : 2 ≤ (splitDot domain).length)
    (hall : ∀ i, i < (splitDot domain).length →
      saLookupFound p.tlds (joinDot ((splitDot domain).drop i)) = true) :
    p.findTLDOffset (splitDot domain) = -1 ∧
    p.Parse domain = { Sub := [], Root := domain, TopLevel := [] } := by
  obtain ⟨n, hn⟩ : ∃ n, (splitDot domain).length = n + 2 :=
    ⟨(splitDot domain).length - 2, by omega⟩
  have hoff := findTLDOffset_eq_aux p (splitDot domain) (n + 1) (by omega)
  have haux := findTLDOffsetAux_eq_neg_one (saLookupFound p.tlds) (splitDot domain)
    (n + 1) (-1) (fun j hj => hall j (by omega))
  have ho : p.findTLDOffset (splitDot domain) = -1 := hoff.trans haux
  have hlen : ¬ (splitDot domain).length ≤ 1 := by omega
  exact ⟨ho, by simp [DomainParser.Parse, hlen, ho]⟩

/-- Witness for C9: with suffix list `["com", "example.com"]` both
candidates of `"example.com"` are found, and the parser still returns the
registrable-domain-only record. -/
theorem c9_whole_input_suffix_witness :
    DomainParser.findTLDOffset ⟨[("com").toList, ("example.com").toList]⟩
      (splitDot (("example.com").toList)) = -1 ∧
    DomainParser.Parse ⟨[("com").toList, ("example.com").toList]⟩
      (("example.com").toList) =
      { Sub := [], Root := ("example.com").toList, TopLevel := [] } :=
  c9_whole_input_suffix ⟨[("com").toList, ("example.com").toList]⟩
    (("example.com").toList) (by decide) (by decide)

theorem domainString_no_sub {R T : List Char} (hR : R ≠ []) (hT : T ≠ []) :
    Domain.string { Sub := [], Root := R, TopLevel := T } = R ++ '.' :: T := by
  simp [Domain.string, hR, hT, joinDot, joinSep]

theorem domainString_full {S R T : List Char} (hS : S ≠ []) (hR : R ≠ []) (hT : T ≠ []) :
    Domain.string { Sub := S, Root := R, TopLevel := T } = S ++ '.' :: (R ++ '.' :: T) := by
  simp [Domain.string, hS, hR, hT, joinDot, joinSep]

theorem joinDot_cons_ne (a : List Char) {l : List (List Char)} (h : l ≠ []) :
    joinDot (a :: l) = a ++ '.' :: joinDot l :=
  joinSep_cons_ne_nil '.' a h

theorem joinDot_append_ne {l₁ l₂ : List (List Char)} (h₁ : l₁ ≠ []) (h₂ : l₂ ≠ []) :
    joinDot (l₁ ++ l₂) = joinDot l₁ ++ '.' :: joinDot l₂ :=
  joinSep_append '.' h₁ h₂

/-- C3 (amended): for hostnames all of whose dot-separated labels are
non-empty, whenever `Parse` reports a non-empty suffix, `Domain.String`
reassembles the record to exactly the original input (no normalization).
The original unrestricted claim fails on inputs with empty labels such as
`".com"`. -/
theorem c3_roundtrip (p : DomainParser) (domain : List Char)
    (hlab : ∀ part ∈ splitDot domain, part ≠ [])
    (hTL : (p.Parse domain).TopLevel ≠ []) :
    Domain.string (p.Parse domain) = domain := by
  rcases Parse_cases p domain with h | ⟨j, n, hn, hj1, hj2, hlook, h⟩
  · rw [h] at hTL
    exact absurd rfl hTL
  · have hjlt : j < (splitDot domain).length := by omega
    have hj1lt : j - 1 < (splitDot domain).length := by omega
    have hRoot_ne : (splitDot domain).getD (j - 1) [] ≠ [] :=
      hlab _ (getD_mem hj1lt)
    have hTL_ne : joinDot ((splitDot domain).drop j) ≠ [] :=
      ne_nil_of_saLookupFound hlook
    have hdropj_ne : (splitDot domain).drop j ≠ [] := by
      intro hnil
      have := congrArg List.length hnil
      rw [List.length_drop] at this
      simp at this
      omega
    have hdrop : (splitDot domain).drop (j - 1) =
        (splitDot domain).getD (j - 1) [] :: (splitDot domain).drop j := by
      have h' := drop_eq_getD_cons (splitDot domain) (j - 1) hj1lt
      rwa [Nat.sub_add_cancel hj1] at h'
    have hdom : joinDot (splitDot domain) = domain := joinDot_splitDot domain
    rw [h]
    by_cases hj0 : j - 1 = 0
    · rw [hj0] at hdrop hRoot_ne ⊢
      rw [List.drop_zero] at hdrop
      have hsub : joinDot ((splitDot domain).take 0) = ([] : List Char) := rfl
      rw [hsub, domainString_no_sub hRoot_ne hTL_ne]
      conv_rhs => rw [← hdom, hdrop]
      rw [joinDot_cons_ne _ hdropj_ne]
    · have htake_len : ((splitDot domain).take (j - 1)).length = j - 1 := by
        rw [List.length_take]
        omega
      have htake_ne : (splitDot domain).take (j - 1) ≠ [] := by
        intro hnil
        rw [hnil] at htake_len
        simp at htake_len
        omega
      have hsub_ne : joinDot ((splitDot domain).take (j - 1)) ≠ [] := by
        cases htake : (splitDot domain).take (j - 1) with
        | nil => exact absurd htake htake_ne
        | cons a t =>
          have ha : a ∈ splitDot domain := by
            have hmem : a ∈ (splitDot domain).take (j - 1) := by
              rw [htake]
              exact List.mem_cons_self _ _
            exact List.take_subset _ _ hmem
          exact joinDot_cons_ne_nil t (hlab a ha)
      have hparts : splitDot domain = (splitDot domain).take (j - 1) ++
          ((splitDot domain).getD (j - 1) [] :: (splitDot domain).drop j) := by
        conv_lhs => rw [← List.take_append_drop (j - 1) (splitDot domain)]
        rw [hdrop]
      rw [domainString_full hsub_ne hRoot_ne hTL_ne]
      conv_rhs => rw [← hdom, hparts]
      rw [joinDot_append_ne htake_ne (by simp), joinDot_cons_ne _ hdropj_ne]

/-- Witness for C3: `"www.example.com"` with suffix list `["com"]`
reassembles exactly. -/
theorem c3_roundtrip_witness :
    (∀ part ∈ splitDot (("www.example.com").toList), part ≠ []) ∧
    (DomainParser.Parse ⟨[("com").toList]⟩ (("www.example.com").toList)).TopLevel ≠ [] ∧
    Domain.string (DomainParser.Parse ⟨[("com").toList]⟩ (("www.example.com").toList)) =
      ("www.example.com").toList :=
  ⟨by decide, by decide,
   c3_roundtrip ⟨[("com").toList]⟩ (("www.example.com").toList) (by decide) (by decide)⟩

/-- Counterexample for C3 as stated: on `".com"` with suffix list `["com"]`
the suffix field is non-empty, yet reassembly yields `"com"`, not the
original input `".com"`. -/
theorem c3_roundtrip_cex :
    (DomainParser.Parse ⟨[("com").toList]⟩ ((".com").toList)).TopLevel ≠ [] ∧
    Domain.string (DomainParser.Parse ⟨[("com").toList]⟩ ((".com").toList)) ≠
      (".com").toList := by
  decide

/-- C4 (amended): with `"uk"` and `"co.uk"` both in the suffix list, and the
suffix-array query for `"example.co.uk"` failing (equivalently: no element of
the list contains `"example.co.uk"` as a substring — because the lookup is a
substring search, just excluding the exact string `"example.co.uk"` from the
list is not enough), `Parse "www.example.co.uk"` returns suffix `"co.uk"`,
registrable domain `"example"`, subdomain `"www"` — never suffix `"uk"`. -/
theorem c4_longest_suffix (p : DomainParser)
    (huk : ("uk").toList ∈ p.tlds) (hcouk : ("co.uk").toList ∈ p.tlds)
    (hex : saLookupFound p.tlds (("example.co.uk").toList) = false) :
    p.Parse (("www.example.co.uk").toList) =
      { Sub := ("www").toList, Root := ("example").toList,
        TopLevel := ("co.uk").toList } := by
  have l1 : saLookupFound p.tlds (("uk").toList) = true :=
    saLookupFound_of_mem huk (by decide)
  have l2 : saLookupFound p.tlds (("co.uk").toList) = true :=
    saLookupFound_of_mem hcouk (by decide)
  have hsplit : splitDot (("www.example.co.uk").toList) =
      [("www").toList, ("example").toList, ("co").toList, ("uk").toList] := by
    decide
  have h3 : joinDot ((splitDot (("www.example.co.uk").toList)).drop 3) = ("uk").toList := by
    rw [hsplit]
    rfl
  have h2 : joinDot ((splitDot (("www.example.co.uk").toList)).drop 2) = ("co.uk").toList := by
    rw [hsplit]
    rfl
  have h1 : joinDot ((splitDot (("www.example.co.uk").toList)).drop 1) =
      ("example.co.uk").toList := by
    rw [hsplit]
    rfl
  have hlen : (splitDot (("www.example.co.uk").toList)).length = 4 := by
    rw [hsplit]
    rfl
  have hoff : p.findTLDOffset (splitDot (("www.example.co.uk").toList)) = 1 := by
    rw [findTLDOffset_eq_aux p _ 3 hlen]
    rw [findTLDOffsetAux_succ_true (by rw [h3]; exact l1)]
    rw [findTLDOffsetAux_succ_true (by rw [h2]; exact l2)]
    rw [findTLDOffsetAux_succ_false (by rw [h1]; exact hex)]
    rfl
  have hlen' : ¬ (splitDot (("www.example.co.uk").toList)).length ≤ 1 := by
    rw [hlen]
    omega
  have hnonneg : ¬ p.findTLDOffset (splitDot (("www.example.co.uk").toList)) < 0 := by
    rw [hoff]
    omega
  have htn : (p.findTLDOffset (splitDot (("www.example.co.uk").toList))).toNat = 1 := by
    rw [hoff]
    rfl
  simp only [DomainParser.Parse, hlen', if_false, hnonneg, htn]
  rw [hsplit]
  rfl

/-- Witness for C4 at the two-element suffix list `["uk", "co.uk"]`. -/
theorem c4_longest_suffix_witness :
    DomainParser.Parse ⟨[("uk").toList, ("co.uk").toList]⟩
      (("www.example.co.uk").toList) =
      { Sub := ("www").toList, Root := ("example").toList,
        TopLevel := ("co.uk").toList } :=
  c4_longest_suffix ⟨[("uk").toList, ("co.uk").toList]⟩
    (by decide) (by decide) (by decide)

/-- Counterexample for C4 as stated: the suffix list
`["uk", "co.uk", "xexample.co.ukx"]` contains `"uk"` and `"co.uk"` and does
not contain `"example.co.uk"`, yet the substring lookup finds
`"example.co.uk"` inside the third element, so `Parse` returns suffix
`"example.co.uk"` and registrable domain `"www"` instead of the claimed
record. -/
theorem c4_longest_suffix_cex :
    ("uk").toList ∈ [("uk").toList, ("co.uk").toList, ("xexample.co.ukx").toList] ∧
    ("co.uk").toList ∈ [("uk").toList, ("co.uk").toList, ("xexample.co.ukx").toList] ∧
    ("example.co.uk").toList ∉ [("uk").toList, ("co.uk").toList, ("xexample.co.ukx").toList] ∧
    DomainParser.Parse ⟨[("uk").toList, ("co.uk").toList, ("xexample.co.ukx").toList]⟩
        (("www.example.co.uk").toList) =
      { Sub := [], Root := ("www").toList, TopLevel := ("example.co.uk").toList } ∧
    DomainParser.Parse ⟨[("uk").toList, ("co.uk").toList, ("xexample.co.ukx").toList]⟩
        (("www.example.co.uk").toList) ≠
      { Sub := ("www").toList, Root := ("example").toList,
        TopLevel := ("co.uk").toList } := by
  decide

/-- C7: the claim (and the code's own comment) say the port pattern matches
`":" + s` exactly for 1 ≤ value(s) ≤ 65535.  In the pattern
`(?::[0-9]{1,4}|[1-5][0-9]{4}|6[0-5][0-9]{3}\b)` the colon belongs only to
the first alternative, so `":0"` (value 0) matches, `":65535"` (value 65535)
does not match, and the colon-less five-digit string `"65999"` (above 65535)
matches. -/
theorem c7_port_pattern_bug :
    portPatternMatch ((":0").toList) = true ∧
    decValue (("0").toList) = 0 ∧
    portPatternMatch ((":65535").toList) = false ∧
    decValue (("65535").toList) = 65535 ∧
    portPatternMatch (("65999").toList) = true := by
  decide

/-- C8: scheme addition is idempotent on absolute URLs.  For any input of
the form `c :: w ++ "://" ++ rest` whose scheme part starts with a character
other than `'/'` and `':'` (i.e. a URL already carrying a scheme),
`addScheme` returns the input unchanged, so the scheme is neither duplicated
nor corrupted. -/
theorem c8_addScheme_noop_on_absolute (scheme : List Char) (c : Char)
    (w rest : List Char) (hc1 : c ≠ '/') (hc2 : c ≠ ':') :
    addScheme (c :: (w ++ ':' :: '/' :: '/' :: rest)) scheme =
      c :: (w ++ ':' :: '/' :: '/' :: rest) := by
  have h1 : goStartsWith (c :: (w ++ ':' :: '/' :: '/' :: rest))
      ('/' :: '/' :: []) = false := by
    apply decide_eq_false
    rintro ⟨t, ht⟩
    rw [List.cons_append] at ht
    injection ht with hhd _
    exact hc1 hhd.symm
  have h2 : goStartsWith (c :: (w ++ ':' :: '/' :: '/' :: rest))
      (':' :: '/' :: '/' :: []) = false := by
    apply decide_eq_false
    rintro ⟨t, ht⟩
    rw [List.cons_append] at ht
    injection ht with hhd _
    exact hc2 hhd.symm
  have h3 : goContains (c :: (w ++ ':' :: '/' :: '/' :: rest))
      ('/' :: '/' :: []) = true := by
    apply decide_eq_true
    refine ⟨c :: (w ++ [':']), rest, ?_⟩
    simp
  rw [addScheme, h1, h2, h3]
  simp

/-- Witness for C8: `addScheme "http://example.com" "https"` returns the
input unchanged. -/
theorem c8_addScheme_noop_witness :
    addScheme (("http://example.com").toList) (("https").toList) =
      ("http://example.com").toList :=
  c8_addScheme_noop_on_absolute (("https").toList) 'h' (("ttp").toList)
    (("example.com").toList) (by decide) (by decide)

/-- C10: after a successful `net/url.Parse` (abstracted as `urlParse`
returning `some base`), `URLParser.Parse` always succeeds, and the `Domain`
field is `none` exactly when `net.ParseIP` recognizes the hostname as an IP
address literal, and carries the domain decomposition otherwise. -/
theorem c10_domain_attachment (p : URLParser) (v6 : List Char → Bool)
    (urlParse : List Char → Option GoURL) (unparsed : List Char) (base : GoURL)
    (h : urlParse (if p.scheme = [] then unparsed else addScheme unparsed p.scheme) =
      some base) :
    ∃ r : ParsedURL, p.Parse v6 urlParse unparsed = some r ∧ r.base = base ∧
      (goParseIPFound v6 base.hostname = true → r.domain = none) ∧
      (goParseIPFound v6 base.hostname = false →
        r.domain = some (p.dp.Parse base.hostname)) := by
  refine ⟨{ base := base,
            domain := if goParseIPFound v6 base.hostname then none
                      else some (p.dp.Parse base.hostname) }, ?_, rfl, ?_, ?_⟩
  · simp only [URLParser.Parse, h]
  · intro ht
    simp [ht]
  · intro hf
    simp [hf]

/-- Witness for C10: a hostname that is an IPv4 literal gets no `Domain`
record; the fields confirm `"127.0.0.1"` is recognized by the concrete IPv4
path of `net.ParseIP`. -/
theorem c10_domain_attachment_witness :
    ∃ r : ParsedURL,
      URLParser.Parse ⟨⟨[("com").toList]⟩, []⟩ (fun _ => false)
        (fun _ => some ⟨("127.0.0.1").toList⟩) (("http://127.0.0.1/x").toList) =
        some r ∧
      r.base = ⟨("127.0.0.1").toList⟩ ∧
      (goParseIPFound (fun _ => false) (("127.0.0.1").toList) = true →
        r.domain = none) ∧
      (goParseIPFound (fun _ => false) (("127.0.0.1").toList) = false →
        r.domain = some (DomainParser.Parse ⟨[("com").toList]⟩ (("127.0.0.1").toList))) :=
  c10_domain_attachment ⟨⟨[("com").toList]⟩, []⟩ (fun _ => false)
    (fun _ => some ⟨("127.0.0.1").toList⟩) (("http://127.0.0.1/x").toList)
    ⟨("127.0.0.1").toList⟩ rfl

/-- C6: the compiled extraction matcher resolves ambiguity by longest
overall match.  `Extractor.CompileRegex` always sets the `Longest` flag, so
whenever `findAll` emits a match at an offset where the first alternative
(the scheme-anchored form) can match with length `l1` and some alternative
can match with a larger length `l2`, the emitted length is at least `l2` —
never the shorter first-alternative length. -/
theorem c6_longest_overall_match (cfg : ExtractorConfig)
    (urlsWithScheme urlsWithHost relativeURLs : Pat) (s : List Char)
    (i lsel l1 l2 : Nat)
    (hmem : (i, lsel) ∈
      findAll (Extractor.CompileRegex cfg urlsWithScheme urlsWithHost relativeURLs) s)
    (h1 : l1 ∈ urlsWithScheme (s.drop i))
    (h2 : ∃ q ∈ (Extractor.CompileRegex cfg urlsWithScheme urlsWithHost relativeURLs).alts,
      l2 ∈ q (s.drop i))
    (hlt : l1 < l2) :
    l2 ≤ lsel ∧ lsel ≠ l1 := by
  have hsound := findAllAux_sound
    (Extractor.CompileRegex cfg urlsWithScheme urlsWithHost relativeURLs) s _ _ _ _ hmem
  obtain ⟨q, hq, hl2⟩ := h2
  have hjoin : l2 ∈ ((Extractor.CompileRegex cfg urlsWithScheme urlsWithHost
      relativeURLs).alts.map fun p => p (s.drop i)).flatten := by
    rw [List.mem_flatten]
    exact ⟨q (s.drop i), List.mem_map_of_mem _ hq, hl2⟩
  unfold matchLenAt at hsound
  cases hls : ((Extractor.CompileRegex cfg urlsWithScheme urlsWithHost
      relativeURLs).alts.map fun p => p (s.drop i)).flatten with
  | nil =>
    rw [hls] at hjoin
    cases hjoin
  | cons a t =>
    rw [hls] at hsound hjoin
    have hlong : (Extractor.CompileRegex cfg urlsWithScheme urlsWithHost
        relativeURLs).longest = true := rfl
    rw [hlong] at hsound
    simp only [if_true, Option.some.injEq] at hsound
    have hle : l2 ≤ maxLen (a :: t) := maxLen_ge hjoin
    constructor
    · omega
    · omega

/-- Witness for C6: with the default configuration, a first alternative
matching length 4 and a second alternative matching length 8 at offset 0,
`findAll` emits the longer match `(0, 8)`. -/
theorem c6_longest_overall_match_witness :
    ((0, 8) ∈ findAll (Extractor.CompileRegex ⟨false, false⟩
      (fun suf => if suf = ("abcdefgh").toList then [4] else [])
      (fun suf => if suf = ("abcdefgh").toList then [8] else [])
      (fun _ => [])) (("abcdefgh").toList)) ∧
    (8 ≤ 8 ∧ 8 ≠ 4) :=
  ⟨by decide,
   c6_longest_overall_match ⟨false, false⟩
    (fun suf => if suf = ("abcdefgh").toList then [4] else [])
    (fun suf => if suf = ("abcdefgh").toList then [8] else [])
    (fun _ => []) (("abcdefgh").toList) 0 8 4 8
    (by decide)
    (by decide)
    ⟨(fun suf => if suf = ("abcdefgh").toList then [8] else []),
      List.mem_cons_of_mem _ (List.mem_cons_self _ _), by decide⟩
    (by decide)⟩

end HqURL
